import Mathlib

/-!
Verification of the core of `smart_gnomad_downloader` (src/main.rs).

The Rust code is shallowly embedded:
* `SortedIntervalIntersect` (the spec's IntervalScanner) keeps the lazy
  interval iterator as a `List (Nat × Nat)` together with the
  `current_interval : Option (Nat × Nat)` field, exactly as in the struct;
  positions are `u32` in the source and are embedded as `Nat` (every
  arithmetic the scanner performs is a comparison, so no wrap-around
  can occur; parsing enforces the `< 2^32` bound separately).
* lines of the downloaded text are embedded as `List Char` (the sequence of
  unicode scalar values of the Rust `String` line).
* `Md5ConsumerWriter` accumulates the bytes fed to the md5 context; the md5
  compression itself lives in the external `md5` crate and is passed as an
  abstract function argument, while the `format!("{:x}", ...)` rendering and
  the string comparison are embedded concretely.
-/

/-! ## IntervalScanner (`SortedIntervalIntersect` in src/main.rs) -/

structure SortedIntervalIntersect where
  intervals : List (Nat × Nat)
  current_interval : Option (Nat × Nat)
deriving DecidableEq, Repr

namespace SortedIntervalIntersect

/-- Constructor `SortedIntervalIntersect::new`: stores the iterator, no
current interval yet. -/
def new (l : List (Nat × Nat)) : SortedIntervalIntersect :=
  ⟨l, none⟩

/-- The `loop { ... }` inside `in_interval`: `c` is the candidate
`current_interval`, `rest` the not-yet-consumed part of the iterator.
Returns the Rust return value (`Option<bool>`) and the mutated scanner. -/
def loopIn (value : Nat) :
    Option (Nat × Nat) → List (Nat × Nat) → Option Bool × SortedIntervalIntersect
  | none, rest => (none, ⟨rest, none⟩)
  | some c, rest =>
    if value < c.1 then (some false, ⟨rest, some c⟩)
    else if value < c.2 then (some true, ⟨rest, some c⟩)
    else
      match rest with
      | [] => (none, ⟨[], none⟩)
      | i :: rest2 => loopIn value (some i) rest2

/-- Method `in_interval`: if no current candidate has been fetched, fetch the
iterator's next element, then run the loop. -/
def in_interval (s : SortedIntervalIntersect) (value : Nat) :
    Option Bool × SortedIntervalIntersect :=
  match s.current_interval with
  | some c => loopIn value (some c) s.intervals
  | none =>
    match s.intervals with
    | [] => loopIn value none []
    | i :: rest => loopIn value (some i) rest

/-- The intervals the scanner has not yet discarded (current candidate
included), in order. -/
def pending (s : SortedIntervalIntersect) : List (Nat × Nat) :=
  match s.current_interval with
  | some c => c :: s.intervals
  | none => s.intervals

/-- Run a whole sequence of queries through the scanner, collecting the
returned classifications. -/
def scanQueries (s : SortedIntervalIntersect) : List Nat → List (Option Bool)
  | [] => []
  | v :: vs =>
    let r := s.in_interval v
    r.1 :: scanQueries r.2 vs

end SortedIntervalIntersect

/-! ### A pure view of one `in_interval` call on the pending list -/

/-- One `in_interval` call, expressed on the list of pending intervals:
result together with the intervals still pending afterwards. -/
def scanList (value : Nat) : List (Nat × Nat) → Option Bool × List (Nat × Nat)
  | [] => (none, [])
  | c :: rest =>
    if value < c.1 then (some false, c :: rest)
    else if value < c.2 then (some true, c :: rest)
    else scanList value rest

/-- Rebuild a scanner state from a pending list: the head (if any) is the
current candidate. -/
def toState : List (Nat × Nat) → SortedIntervalIntersect
  | [] => ⟨[], none⟩
  | c :: rest => ⟨rest, some c⟩

@[simp] theorem pending_toState (l : List (Nat × Nat)) :
    (toState l).pending = l := by
  cases l <;> rfl

@[simp] theorem pending_new (l : List (Nat × Nat)) :
    (SortedIntervalIntersect.new l).pending = l := rfl

theorem loopIn_eq_scanList (value : Nat) (c : Nat × Nat) (rest : List (Nat × Nat)) :
    SortedIntervalIntersect.loopIn value (some c) rest =
      ((scanList value (c :: rest)).1, toState (scanList value (c :: rest)).2) := by
  induction rest generalizing c with
  | nil =>
    simp only [SortedIntervalIntersect.loopIn, scanList]
    split
    · rfl
    · split
      · rfl
      · rfl
  | cons i rest2 ih =>
    simp only [SortedIntervalIntersect.loopIn, scanList]
    split
    · rfl
    · split
      · rfl
      · exact ih i

/-- Bridge: a call of `in_interval` is fully determined by the pending list,
and the new state's pending list is the one `scanList` computes. -/
theorem in_interval_eq_scanList (s : SortedIntervalIntersect) (value : Nat) :
    s.in_interval value =
      ((scanList value s.pending).1, toState (scanList value s.pending).2) := by
  cases s with
  | mk ints cur =>
    cases cur with
    | some c =>
      simp only [SortedIntervalIntersect.in_interval, SortedIntervalIntersect.pending]
      exact loopIn_eq_scanList value c ints
    | none =>
      cases ints with
      | nil => rfl
      | cons i rest =>
        simp only [SortedIntervalIntersect.in_interval, SortedIntervalIntersect.pending]
        exact loopIn_eq_scanList value i rest

/-- Pure version of `scanQueries`, on pending lists. -/
def scanQueriesList (L : List (Nat × Nat)) : List Nat → List (Option Bool)
  | [] => []
  | v :: vs => (scanList v L).1 :: scanQueriesList (scanList v L).2 vs

theorem scanQueries_eq_list (s : SortedIntervalIntersect) (qs : List Nat) :
    s.scanQueries qs = scanQueriesList s.pending qs := by
  induction qs generalizing s with
  | nil => rfl
  | cons v vs ih =>
    simp only [SortedIntervalIntersect.scanQueries, scanQueriesList,
      in_interval_eq_scanList]
    exact congrArg _ (by simpa using ih (toState (scanList v s.pending).2))

/-! ### Brute-force specification side (for the refinement claim C1) -/

/-- Well-formed half-open intervals: each `[start, end)` has `start ≤ end`. -/
def WFIntervals (L : List (Nat × Nat)) : Prop :=
  ∀ p ∈ L, p.1 ≤ p.2

/-- The spec's "sorted, non-overlapping" precondition: each interval ends no
later than the next one starts. -/
def SortedDisjoint (L : List (Nat × Nat)) : Prop :=
  List.Chain' (fun a b => a.2 ≤ b.1) L


/-- Modelled from the spec's words: the independent brute-force classification
of one query against the whole interval list — `some true` (Inside) when the
value lies in some interval, `none` (Exhausted) when every interval's end has
been passed, `some false` (Outside) otherwise. -/
def bruteClassify (L : List (Nat × Nat)) (v : Nat) : Option Bool :=
  if ∃ p ∈ L, p.1 ≤ v ∧ v < p.2 then some true
  else if ∀ p ∈ L, p.2 ≤ v then none
  else some false

theorem wf_tail {c : Nat × Nat} {rest : List (Nat × Nat)}
    (h : WFIntervals (c :: rest)) : WFIntervals rest :=
  fun p hp => h p (List.mem_cons_of_mem c hp)

theorem sortedDisjoint_tail {c : Nat × Nat} {rest : List (Nat × Nat)}
    (h : SortedDisjoint (c :: rest)) : SortedDisjoint rest :=
  (List.chain'_cons'.mp h).2

/-- In a well-formed sorted-disjoint list, every later interval starts at or
after the head's end. -/
theorem head_le_rest {c : Nat × Nat} {rest : List (Nat × Nat)}
    (hwf : WFIntervals (c :: rest)) (hs : SortedDisjoint (c :: rest)) :
    ∀ p ∈ rest, c.2 ≤ p.1 := by
  induction rest generalizing c with
  | nil => intro p hp; cases hp
  | cons d rest2 ih =>
    intro p hp
    have hcd : c.2 ≤ d.1 := (List.chain'_cons.mp hs).1
    rcases List.mem_cons.mp hp with h | h
    · subst h; exact hcd
    · have hd2 : d.1 ≤ d.2 := hwf d (by simp)
      have := ih (c := d)
        (fun q hq => hwf q (List.mem_cons_of_mem c hq))
        (List.chain'_cons.mp hs).2 p h
      omega

/-- The result of one call agrees with the brute-force classification,
provided the pending list is well-formed, sorted, and non-overlapping. -/
theorem scanList_fst_eq_brute {L : List (Nat × Nat)} (v : Nat)
    (hwf : WFIntervals L) (hs : SortedDisjoint L) :
    (scanList v L).1 = bruteClassify L v := by
  induction L with
  | nil => rfl
  | cons c rest ih =>
    have hc : c.1 ≤ c.2 := hwf c (by simp)
    by_cases h1 : v < c.1
    · have hrest : ∀ p ∈ rest, c.2 ≤ p.1 := head_le_rest hwf hs
      have hex : ¬ ∃ p ∈ c :: rest, p.1 ≤ v ∧ v < p.2 := by
        rintro ⟨p, hp, hple, hplt⟩
        rcases List.mem_cons.mp hp with h | h
        · subst h; omega
        · have := hrest p h; omega
      have hall : ¬ ∀ p ∈ c :: rest, p.2 ≤ v := by
        intro h
        have := h c (by simp)
        omega
      rw [bruteClassify, if_neg hex, if_neg hall]
      simp [scanList, h1]
    · by_cases h2 : v < c.2
      · have hex : ∃ p ∈ c :: rest, p.1 ≤ v ∧ v < p.2 :=
          ⟨c, by simp, by omega, h2⟩
        rw [bruteClassify, if_pos hex]
        simp [scanList, h1, h2]
      · have hiff1 : (∃ p ∈ c :: rest, p.1 ≤ v ∧ v < p.2) ↔
            (∃ p ∈ rest, p.1 ≤ v ∧ v < p.2) := by
          constructor
          · rintro ⟨p, hp, hple, hplt⟩
            rcases List.mem_cons.mp hp with h | h
            · subst h; omega
            · exact ⟨p, h, hple, hplt⟩
          · rintro ⟨p, hp, hcond⟩
            exact ⟨p, List.mem_cons_of_mem c hp, hcond⟩
        have hiff2 : (∀ p ∈ c :: rest, p.2 ≤ v) ↔ (∀ p ∈ rest, p.2 ≤ v) := by
          constructor
          · intro h p hp
            exact h p (List.mem_cons_of_mem c hp)
          · intro h p hp
            rcases List.mem_cons.mp hp with he | he
            · subst he; omega
            · exact h p he
        have heq : bruteClassify (c :: rest) v = bruteClassify rest v := by
          rw [bruteClassify, bruteClassify,
            if_congr hiff1 rfl (if_congr hiff2 rfl rfl)]
        have hstep : scanList v (c :: rest) = scanList v rest := by
          simp [scanList, h1, h2]
        rw [hstep, heq]
        exact ih (wf_tail hwf) (sortedDisjoint_tail hs)

/-- The pending list after a call is a suffix of the one before, and every
discarded interval's end is at most the queried value. -/
theorem scanList_decomp (v : Nat) (L : List (Nat × Nat)) :
    ∃ L₁, L = L₁ ++ (scanList v L).2 ∧ ∀ p ∈ L₁, p.2 ≤ v := by
  induction L with
  | nil => exact ⟨[], rfl, by simp⟩
  | cons c rest ih =>
    by_cases h1 : v < c.1
    · exact ⟨[], by simp [scanList, h1], by simp⟩
    · by_cases h2 : v < c.2
      · exact ⟨[], by simp [scanList, h1, h2], by simp⟩
      · obtain ⟨L₁, hL, hend⟩ := ih
        refine ⟨c :: L₁, ?_, ?_⟩
        · have hstep : scanList v (c :: rest) = scanList v rest := by
            simp [scanList, h1, h2]
          rw [hstep, List.cons_append, ← hL]
        · intro p hp
          rcases List.mem_cons.mp hp with h | h
          · subst h; omega
          · exact hend p h

/-- Dropping intervals whose end is at most the query does not change the
brute-force classification. -/
theorem bruteClassify_append_of_passed {L₁ L₂ : List (Nat × Nat)} {v : Nat}
    (h : ∀ p ∈ L₁, p.2 ≤ v) :
    bruteClassify (L₁ ++ L₂) v = bruteClassify L₂ v := by
  have hiff1 : (∃ p ∈ L₁ ++ L₂, p.1 ≤ v ∧ v < p.2) ↔
      (∃ p ∈ L₂, p.1 ≤ v ∧ v < p.2) := by
    constructor
    · rintro ⟨p, hp, hple, hplt⟩
      rcases List.mem_append.mp hp with hm | hm
      · have := h p hm; omega
      · exact ⟨p, hm, hple, hplt⟩
    · rintro ⟨p, hp, hcond⟩
      exact ⟨p, List.mem_append_right L₁ hp, hcond⟩
  have hiff2 : (∀ p ∈ L₁ ++ L₂, p.2 ≤ v) ↔ (∀ p ∈ L₂, p.2 ≤ v) := by
    constructor
    · intro hh p hp
      exact hh p (List.mem_append_right L₁ hp)
    · intro hh p hp
      rcases List.mem_append.mp hp with hm | hm
      · exact h p hm
      · exact hh p hm
  rw [bruteClassify, bruteClassify,
    if_congr hiff1 rfl (if_congr hiff2 rfl rfl)]

theorem chain_le_of_mem_tail {v : Nat} {vs : List Nat}
    (h : List.Chain' (· ≤ ·) (v :: vs)) : ∀ w ∈ vs, v ≤ w := by
  intro w hw
  have hp : List.Pairwise (· ≤ ·) (v :: vs) := by
    rw [← List.chain'_iff_pairwise]
    exact h
  exact (List.pairwise_cons.mp hp).1 w hw

/-- Workhorse: over a well-formed sorted-disjoint pending list and
non-decreasing queries, the scanner answers exactly the brute-force
classification against the full original list, query by query. -/
theorem scanQueriesList_spec (qs : List Nat) (L : List (Nat × Nat))
    (hwf : WFIntervals L) (hs : SortedDisjoint L)
    (hmono : List.Chain' (· ≤ ·) qs) :
    scanQueriesList L qs = qs.map (bruteClassify L) := by
  induction qs generalizing L with
  | nil => rfl
  | cons v vs ih =>
    obtain ⟨L₁, hL, hend⟩ := scanList_decomp v L
    have hwf2 : WFIntervals (scanList v L).2 := by
      intro p hp
      exact hwf p (hL ▸ List.mem_append_right L₁ hp)
    have hs2 : SortedDisjoint (scanList v L).2 := by
      have hres : SortedDisjoint (L₁ ++ (scanList v L).2) := hL ▸ hs
      exact (List.chain'_append.mp hres).2.1
    have hmono2 : List.Chain' (· ≤ ·) vs := (List.chain'_cons'.mp hmono).2
    have htail : vs.map (bruteClassify (scanList v L).2) = vs.map (bruteClassify L) := by
      apply List.map_congr_left
      intro w hw
      have hvw : v ≤ w := chain_le_of_mem_tail hmono w hw
      have hdrop : bruteClassify (L₁ ++ (scanList v L).2) w =
          bruteClassify (scanList v L).2 w := by
        apply bruteClassify_append_of_passed
        intro p hp
        have := hend p hp
        omega
      conv_rhs => rw [hL]
      exact hdrop.symm
    simp only [scanQueriesList, List.map_cons]
    rw [scanList_fst_eq_brute v hwf hs, ih (scanList v L).2 hwf2 hs2 hmono2, htail]

instance (L : List (Nat × Nat)) : Decidable (WFIntervals L) :=
  inferInstanceAs (Decidable (∀ p ∈ L, p.1 ≤ p.2))

instance (L : List (Nat × Nat)) : Decidable (SortedDisjoint L) :=
  inferInstanceAs (Decidable (List.Chain' (fun (a b : Nat × Nat) => a.2 ≤ b.1) L))

theorem bruteClassify_eq_none {L : List (Nat × Nat)} {v : Nat} :
    bruteClassify L v = none ↔ ∀ p ∈ L, p.2 ≤ v := by
  by_cases h1 : ∃ p ∈ L, p.1 ≤ v ∧ v < p.2
  · obtain ⟨p, hp, hle, hlt⟩ := h1
    rw [bruteClassify, if_pos ⟨p, hp, hle, hlt⟩]
    constructor
    · intro h; cases h
    · intro h; have := h p hp; omega
  · by_cases h2 : ∀ p ∈ L, p.2 ≤ v
    · rw [bruteClassify, if_neg h1, if_pos h2]
      exact iff_of_true rfl h2
    · rw [bruteClassify, if_neg h1, if_neg h2]
      exact iff_of_false (by simp) h2

/-- C1: for every non-decreasing sequence of query positions and every sorted,
non-overlapping list of half-open intervals, each `in_interval` call returns
`some true` (Inside) exactly when the queried value lies in some interval of
the list, `some false` (Outside) when it lies in a gap before or between the
remaining intervals, and `none` (Exhausted) otherwise — query by query it
agrees with the independent brute-force containment check `bruteClassify`. -/
theorem c1_scanner_agrees_with_bruteforce (L : List (Nat × Nat)) (qs : List Nat)
    (hwf : WFIntervals L) (hs : SortedDisjoint L)
    (hmono : List.Chain' (· ≤ ·) qs) :
    (SortedIntervalIntersect.new L).scanQueries qs = qs.map (bruteClassify L) := by
  rw [scanQueries_eq_list, pending_new]
  exact scanQueriesList_spec qs L hwf hs hmono

/-- Witness for C1 at the interval list and queries of the repository's own
`test_intersection_check` unit test. -/
theorem c1_scanner_agrees_with_bruteforce_witness :
    (SortedIntervalIntersect.new [(100, 200), (400, 1000)]).scanQueries
        [10, 150, 151, 220, 450, 460, 1100, 2000, 3000]
      = [10, 150, 151, 220, 450, 460, 1100, 2000, 3000].map
          (bruteClassify [(100, 200), (400, 1000)]) :=
  c1_scanner_agrees_with_bruteforce [(100, 200), (400, 1000)]
    [10, 150, 151, 220, 450, 460, 1100, 2000, 3000]
    (by decide) (by simp [SortedDisjoint]) (by simp)

/-- C2: over a non-decreasing query sequence against a sorted non-overlapping
interval list, (1) once `in_interval` returns `none` (Exhausted) every
subsequent query also returns `none`; (2) a query strictly below the first
interval's start returns `some false` (Outside), never Exhausted; and (3)
`none` is returned only once every interval of the list has been passed,
i.e. only for queries at or past the last interval's end. -/
theorem c2_exhaustion_and_gap_properties (L : List (Nat × Nat)) (qs : List Nat)
    (hwf : WFIntervals L) (hs : SortedDisjoint L)
    (hmono : List.Chain' (· ≤ ·) qs) :
    (∀ (i j : Nat), i ≤ j → j < qs.length →
      ((SortedIntervalIntersect.new L).scanQueries qs)[i]? = some none →
      ((SortedIntervalIntersect.new L).scanQueries qs)[j]? = some none)
    ∧ (∀ (a b : Nat) (rest : List (Nat × Nat)), L = (a, b) :: rest →
      ∀ (i v : Nat), qs[i]? = some v → v < a →
      ((SortedIntervalIntersect.new L).scanQueries qs)[i]? = some (some false))
    ∧ (∀ (i v : Nat), qs[i]? = some v →
      ((SortedIntervalIntersect.new L).scanQueries qs)[i]? = some none →
      ∀ p ∈ L, p.2 ≤ v) := by
  have hres : (SortedIntervalIntersect.new L).scanQueries qs
      = qs.map (bruteClassify L) := by
    rw [scanQueries_eq_list, pending_new]
    exact scanQueriesList_spec qs L hwf hs hmono
  have hpair : List.Pairwise (· ≤ ·) qs := List.chain'_iff_pairwise.mp hmono
  refine ⟨?_, ?_, ?_⟩
  · intro i j hij hj h
    rw [hres, List.getElem?_map] at h ⊢
    obtain ⟨v, hv, hbv⟩ := Option.map_eq_some'.mp h
    obtain ⟨hi, hvi⟩ := List.getElem?_eq_some.mp hv
    have hle : v ≤ qs[j] := by
      rcases Nat.lt_or_ge i j with hlt | hge
      · have := List.pairwise_iff_getElem.mp hpair i j hi hj hlt
        omega
      · have hij2 : i = j := by omega
        subst hij2
        omega
    have hends : ∀ p ∈ L, p.2 ≤ v := bruteClassify_eq_none.mp hbv
    have hbj : bruteClassify L qs[j] = none := by
      apply bruteClassify_eq_none.mpr
      intro p hp
      have := hends p hp
      omega
    rw [List.getElem?_eq_getElem hj]
    simp [hbj]
  · intro a b rest hL i v hv hva
    rw [hres, List.getElem?_map, hv]
    subst hL
    have hab : a ≤ b := hwf (a, b) (by simp)
    have hrest : ∀ p ∈ rest, b ≤ p.1 := head_le_rest hwf hs
    have hex : ¬ ∃ p ∈ (a, b) :: rest, p.1 ≤ v ∧ v < p.2 := by
      rintro ⟨p, hp, hle, hlt⟩
      rcases List.mem_cons.mp hp with he | he
      · subst he; simp at hle; omega
      · have := hrest p he; omega
    have hall : ¬ ∀ p ∈ (a, b) :: rest, p.2 ≤ v := by
      intro h
      have := h (a, b) (by simp)
      simp at this
      omega
    have hb : bruteClassify ((a, b) :: rest) v = some false := by
      rw [bruteClassify, if_neg hex, if_neg hall]
    simp [hb]
  · intro i v hv h
    rw [hres, List.getElem?_map, hv] at h
    exact bruteClassify_eq_none.mp (Option.some.inj h)

/-- Witness for C2: with interval list `[(0, 1)]` and queries `[0, 5, 6]`, the
second query is Exhausted, hence (by part 1 of C2) so is the third. -/
theorem c2_exhaustion_and_gap_properties_witness :
    ((SortedIntervalIntersect.new [(0, 1)]).scanQueries [0, 5, 6])[2]? = some none :=
  (c2_exhaustion_and_gap_properties [(0, 1)] [0, 5, 6]
      (by decide) (by simp [SortedDisjoint]) (by simp)).1 1 2
    (by decide) (by decide) (by decide)

/-! ## Line filtering (the loop body of `smart_save_vcf_from_url`) -/

/-- A text line of the decompressed stream, embedded as its character list. -/
abbrev Line := List Char

/-- Rust `line.starts_with("#")` on the embedded line. -/
def isHeader (l : Line) : Bool :=
  match l with
  | '#' :: _ => true
  | _ => false

/-- Rust `line.split("\t")`: split the line at every tab character. -/
def splitTab : Line → List Line
  | [] => [[]]
  | c :: rest =>
    match splitTab rest with
    | [] => [[c]]
    | f :: fs => if c = '\t' then [] :: f :: fs else (c :: f) :: fs

/-- Rust `str::parse::<u32>()` on a field: optional leading `+`, then one or
more ascii digits, and the value must fit in an unsigned 32-bit integer. -/
def parseU32 (cs : Line) : Option Nat :=
  let t := match cs with
    | '+' :: rest => rest
    | _ => cs
  if t = [] then none
  else if t.all (fun c => c.isDigit) then
    let n := t.foldl (fun acc c => acc * 10 + (c.toNat - 48)) 0
    if n < 4294967296 then some n else none
  else none

/-- Position extraction from a data line (`line.split("\t").nth(1)` followed
by `.parse::<u32>()`): `none` models the fatal `expect` panics. -/
def linePos (line : Line) : Option Nat :=
  match (splitTab line)[1]? with
  | none => none
  | some f => parseU32 f

/-- Outcome of the per-line loop of `smart_save_vcf_from_url`: either the
stream was fully consumed (`ok`, with the lines written to the output and the
final scanner state), or the job panicked on a malformed record (`fatal`, with
the lines written before that record and the offending line, which is never
written). -/
inductive RunResult where
  | ok (out : List Line) (final : SortedIntervalIntersect)
  | fatal (out : List Line) (badLine : Line)
deriving DecidableEq

/-- The lines written to the output file, in either outcome. -/
def RunResult.out : RunResult → List Line
  | .ok o _ => o
  | .fatal o _ => o

/-- Write one more line in front of whatever the rest of the run produced. -/
def prependLine (line : Line) : RunResult → RunResult
  | .ok o fin => .ok (line :: o) fin
  | .fatal o bad => .fatal (line :: o) bad

/-- The `for line in bg_reader.lines()` loop of `smart_save_vcf_from_url`:
a line starting with `#` is copied unfiltered (the scanner is not consulted);
otherwise the second tab field is parsed as the position (failure is fatal)
and the line is copied exactly when `in_interval` returns `Some(true)`. -/
def processLines (s : SortedIntervalIntersect) : List Line → RunResult
  | [] => .ok [] s
  | line :: rest =>
    if isHeader line then prependLine line (processLines s rest)
    else
      match linePos line with
      | none => .fatal [] line
      | some pos =>
        if (s.in_interval pos).1 = some true then
          prependLine line (processLines (s.in_interval pos).2 rest)
        else processLines (s.in_interval pos).2 rest

@[simp] theorem out_prependLine (line : Line) (r : RunResult) :
    (prependLine line r).out = line :: r.out := by
  cases r <;> rfl

/-- Whatever happens, the written lines are a subsequence of the input lines:
kept lines appear in their original order. -/
theorem processLines_out_sublist (lines : List Line) (s : SortedIntervalIntersect) :
    List.Sublist (processLines s lines).out lines := by
  induction lines generalizing s with
  | nil => simp [processLines, RunResult.out]
  | cons line rest ih =>
    by_cases hh : isHeader line
    · simp only [processLines, if_pos hh, out_prependLine]
      exact (ih s).cons₂ line
    · simp only [processLines, if_neg hh]
      match hp : linePos line with
      | none => simp [RunResult.out]
      | some pos =>
        by_cases ht : (s.in_interval pos).1 = some true
        · simp only [if_pos ht, out_prependLine]
          exact (ih _).cons₂ line
        · simp only [if_neg ht]
          exact (ih _).cons line

theorem prependLine_eq_ok {line : Line} {r : RunResult} {out : List Line}
    {fin : SortedIntervalIntersect}
    (h : prependLine line r = RunResult.ok out fin) :
    ∃ o2, r = RunResult.ok o2 fin ∧ out = line :: o2 := by
  cases r with
  | ok o f =>
    injection h with h1 h2
    exact ⟨o, by rw [h2], h1.symm⟩
  | fatal o b => exact RunResult.noConfusion h

/-- C4: for every line of the decompressed stream, a `#` line is copied
verbatim without consulting the scanner (the rest is processed with the
scanner state unchanged); any other line has its position taken from the
second tab-separated field and is copied exactly when the scanner answers
`Some(true)` (Inside), and dropped on `Some(false)` (Outside) or `None`
(Exhausted); copied lines appear in the output in original input order
(the output is a subsequence of the input). -/
theorem c4_per_line_filtering (s : SortedIntervalIntersect) (line : Line)
    (rest : List Line) :
    (isHeader line = true →
      processLines s (line :: rest) = prependLine line (processLines s rest))
    ∧ (isHeader line = false → ∀ pos : Nat, linePos line = some pos →
        ((s.in_interval pos).1 = some true →
          processLines s (line :: rest)
            = prependLine line (processLines (s.in_interval pos).2 rest))
        ∧ ((s.in_interval pos).1 = some false ∨ (s.in_interval pos).1 = none →
          processLines s (line :: rest)
            = processLines (s.in_interval pos).2 rest))
    ∧ List.Sublist (processLines s (line :: rest)).out (line :: rest) := by
  refine ⟨?_, ?_, processLines_out_sublist _ _⟩
  · intro hh
    simp [processLines, hh]
  · intro hh pos hp
    constructor
    · intro ht
      simp [processLines, hh, hp, ht]
    · intro hd
      have ht : ¬ (s.in_interval pos).1 = some true := by
        rcases hd with h | h <;> simp [h]
      simp [processLines, hh, hp, ht]

/-- Witness for C4: a header line in front of an empty rest is copied
verbatim with the scanner untouched. -/
theorem c4_per_line_filtering_witness :
    processLines (SortedIntervalIntersect.new [(100, 200)]) ["#hdr".toList]
      = prependLine "#hdr".toList
          (processLines (SortedIntervalIntersect.new [(100, 200)]) []) :=
  (c4_per_line_filtering (SortedIntervalIntersect.new [(100, 200)])
    "#hdr".toList []).1 (by decide)

/-- C8: a non-header line whose second tab-separated field is missing,
non-numeric, or not a `u32` kills the job at exactly that line: the lines
before it are written normally, the malformed record itself is not written,
and nothing after it is processed. -/
theorem c8_malformed_record_fatal (s : SortedIntervalIntersect)
    (pre : List Line) (line : Line) (rest : List Line)
    (out : List Line) (fin : SortedIntervalIntersect)
    (hpre : processLines s pre = RunResult.ok out fin)
    (hnh : isHeader line = false) (hbad : linePos line = none) :
    processLines s (pre ++ line :: rest) = RunResult.fatal out line := by
  induction pre generalizing s out with
  | nil =>
    simp only [processLines] at hpre
    injection hpre with h1 h2
    subst h1
    simp [processLines, hnh, hbad]
  | cons l pre2 ih =>
    by_cases hh : isHeader l
    · simp only [List.cons_append, processLines, if_pos hh, List.append_eq] at hpre ⊢
      obtain ⟨o2, hrec, hout⟩ := prependLine_eq_ok hpre
      subst hout
      rw [ih s o2 hrec]
      rfl
    · simp only [List.cons_append, processLines, if_neg hh, List.append_eq] at hpre ⊢
      cases hp : linePos l with
      | none =>
        simp only [hp] at hpre
        exact RunResult.noConfusion hpre
      | some pos =>
        simp only [hp] at hpre ⊢
        by_cases ht : (s.in_interval pos).1 = some true
        · rw [if_pos ht] at hpre ⊢
          obtain ⟨o2, hrec, hout⟩ := prependLine_eq_ok hpre
          subst hout
          rw [ih _ o2 hrec]
          rfl
        · rw [if_neg ht] at hpre ⊢
          exact ih _ out hpre

/-- Witness for C8: a record whose second field is `abc` aborts the job right
after the header was written; the following well-formed record is never
processed. -/
theorem c8_malformed_record_fatal_witness :
    processLines (SortedIntervalIntersect.new [(100, 200)])
        (["#h".toList] ++ "chr1\tabc\tX".toList :: ["chr1\t150\tY".toList])
      = RunResult.fatal ["#h".toList] "chr1\tabc\tX".toList :=
  c8_malformed_record_fatal (SortedIntervalIntersect.new [(100, 200)])
    ["#h".toList] "chr1\tabc\tX".toList ["chr1\t150\tY".toList]
    ["#h".toList] (SortedIntervalIntersect.new [(100, 200)])
    (by decide) (by decide) (by decide)

/-- A line that the full-range filter keeps: a header, or a data line whose
position parses and is strictly below `u32::MAX`. -/
def lineOk (l : Line) : Bool :=
  isHeader l ||
    (match linePos l with
     | some p => decide (p < 4294967295)
     | none => false)

theorem processLines_full_range {lines : List Line} {s : SortedIntervalIntersect}
    (hpend : s.pending = [(0, 4294967295)])
    (h : lines.all lineOk = true) :
    ∃ fin, processLines s lines = RunResult.ok lines fin := by
  induction lines generalizing s with
  | nil => exact ⟨s, rfl⟩
  | cons line rest ih =>
    rw [List.all_cons, Bool.and_eq_true] at h
    obtain ⟨hline, hrest⟩ := h
    by_cases hh : isHeader line
    · obtain ⟨fin, hfin⟩ := ih hpend hrest
      exact ⟨fin, by simp [processLines, hh, hfin, prependLine]⟩
    · rw [lineOk, Bool.eq_false_iff.mpr hh, Bool.false_or] at hline
      cases hp : linePos line with
      | none => rw [hp] at hline; cases hline
      | some p =>
        rw [hp] at hline
        have hplt : p < 4294967295 := of_decide_eq_true hline
        have hcall := in_interval_eq_scanList s p
        rw [hpend] at hcall
        have hscan : scanList p [(0, 4294967295)] = (some true, [(0, 4294967295)]) := by
          simp [scanList, hplt]
        rw [hscan] at hcall
        obtain ⟨fin, hfin⟩ := ih (s := toState [(0, 4294967295)]) (by simp) hrest
        refine ⟨fin, ?_⟩
        simp only [processLines, if_neg hh, hp, hcall]
        simp [hfin, prependLine]

/-- Counterexample to C3 as stated: a well-formed data record at position
`u32::MAX = 4294967295` (a valid `u32` position) is dropped by the filter
`[(0, u32::MAX)]`, because the region is half-open, so the output record
sequence is empty rather than equal to the input record sequence. -/
theorem c3_full_range_filter_counterexample :
    processLines (SortedIntervalIntersect.new [(0, 4294967295)])
        ["chr1\t4294967295\tA".toList]
      = RunResult.ok [] (SortedIntervalIntersect.mk [] none)
    ∧ (processLines (SortedIntervalIntersect.new [(0, 4294967295)])
        ["chr1\t4294967295\tA".toList]).out
      ≠ ["chr1\t4294967295\tA".toList] :=
  ⟨by decide, by decide⟩

/-- C3 amended: filtering with the single region list `[(0, u32::MAX)]`
preserves every header line and every data record whose position is strictly
below `u32::MAX = 4294967295`, in original order; a record at position exactly
`u32::MAX` is excluded by the half-open interval (see the counterexample). -/
theorem c3_full_range_filter_amended (lines : List Line)
    (h : lines.all lineOk = true) :
    ∃ fin, processLines (SortedIntervalIntersect.new [(0, 4294967295)]) lines
      = RunResult.ok lines fin :=
  processLines_full_range rfl h

/-- Witness for the amended C3 on a header plus one in-range record. -/
theorem c3_full_range_filter_amended_witness :
    ∃ fin, processLines (SortedIntervalIntersect.new [(0, 4294967295)])
        ["#h".toList, "chr1\t150\tA".toList]
      = RunResult.ok ["#h".toList, "chr1\t150\tA".toList] fin :=
  c3_full_range_filter_amended ["#h".toList, "chr1\t150\tA".toList] (by decide)

/-! ## ChecksumingSink (`Md5ConsumerWriter` in src/main.rs) -/

/-- The `Md5ConsumerWriter`: the bytes fed into the md5 context so far, and
the byte count reported to the progress bar. -/
structure Md5ConsumerWriter where
  consumed : List Nat
  progress : Nat
deriving DecidableEq, Repr

/-- Constructor `Md5ConsumerWriter::new` (fresh md5 context). -/
def Md5ConsumerWriter.new : Md5ConsumerWriter := ⟨[], 0⟩

/-- `Write::write`: consume the buffer into the md5 context, advance the
progress bar by the chunk length, report the full length written. -/
def Md5ConsumerWriter.write (w : Md5ConsumerWriter) (buf : List Nat) :
    Md5ConsumerWriter × Nat :=
  (⟨w.consumed ++ buf, w.progress + buf.length⟩, buf.length)

/-- One hex digit of `format!("{:x}", ...)`: `0`-`9` then lowercase `a`-`f`. -/
def toHexDigit (n : Nat) : Char :=
  if n < 10 then Char.ofNat (48 + n) else Char.ofNat (87 + n)

/-- Two lowercase hex digits for one byte (the `{:02x}` per-byte rendering of
the md5 crate's `LowerHex` implementation). -/
def byteToHex (b : Nat) : List Char :=
  [toHexDigit (b / 16 % 16), toHexDigit (b % 16)]

/-- `format!("{:x}", digest)`: every digest byte as two lowercase hex
digits, concatenated. -/
def formatLowerHex (bytes : List Nat) : List Char :=
  bytes.foldr (fun b acc => byteToHex b ++ acc) []

/-- Method `digest`: render the accumulated context's digest in lowercase hex
and compare it to the expected digest string for exact equality. The md5
compression itself lives in the external `md5` crate and is abstracted as
`md5Compute`. -/
def Md5ConsumerWriter.digest (w : Md5ConsumerWriter)
    (md5Compute : List Nat → List Nat) (expected_md5sum : List Char) : Bool :=
  let md5sum := formatLowerHex (md5Compute w.consumed)
  if md5sum = expected_md5sum then true else false

theorem toHexDigit_lower : ∀ n, n < 16 →
    ((toHexDigit n).isDigit = true ∨ ('a' ≤ toHexDigit n ∧ toHexDigit n ≤ 'f'))
    ∧ (toHexDigit n).isUpper = false := by
  decide

theorem mem_byteToHex {c : Char} {b : Nat} (h : c ∈ byteToHex b) :
    c = toHexDigit (b / 16 % 16) ∨ c = toHexDigit (b % 16) := by
  simpa [byteToHex] using h

theorem mem_formatLowerHex {c : Char} {bytes : List Nat}
    (h : c ∈ formatLowerHex bytes) : ∃ b ∈ bytes, c ∈ byteToHex b := by
  induction bytes with
  | nil => cases h
  | cons b rest ih =>
    rcases List.mem_append.mp h with hm | hm
    · exact ⟨b, by simp, hm⟩
    · obtain ⟨b2, hb2, hc2⟩ := ih hm
      exact ⟨b2, List.mem_cons_of_mem b hb2, hc2⟩

/-- C6: `digest` renders the accumulated digest as a lowercase hexadecimal
string and compares it by case-sensitive exact string equality: it returns
`true` iff the expected string equals that rendering; the rendering contains
only digits and lowercase `a`-`f` (never an uppercase character), so an
expected digest containing any uppercase character never matches. -/
theorem c6_digest_exact_lowercase_match (w : Md5ConsumerWriter)
    (md5Compute : List Nat → List Nat) (expected : List Char) :
    (w.digest md5Compute expected = true ↔
      expected = formatLowerHex (md5Compute w.consumed))
    ∧ (∀ c ∈ formatLowerHex (md5Compute w.consumed),
        ((c.isDigit = true ∨ ('a' ≤ c ∧ c ≤ 'f')) ∧ c.isUpper = false))
    ∧ ((∃ c ∈ expected, c.isUpper = true) →
        w.digest md5Compute expected = false) := by
  have hlower : ∀ c ∈ formatLowerHex (md5Compute w.consumed),
      ((c.isDigit = true ∨ ('a' ≤ c ∧ c ≤ 'f')) ∧ c.isUpper = false) := by
    intro c hc
    obtain ⟨b, _, hcb⟩ := mem_formatLowerHex hc
    rcases mem_byteToHex hcb with he | he <;> subst he
    · exact toHexDigit_lower _ (Nat.mod_lt _ (by omega))
    · exact toHexDigit_lower _ (Nat.mod_lt _ (by omega))
  have hiff : w.digest md5Compute expected = true ↔
      expected = formatLowerHex (md5Compute w.consumed) := by
    unfold Md5ConsumerWriter.digest
    by_cases heq : formatLowerHex (md5Compute w.consumed) = expected
    · rw [if_pos heq]
      exact iff_of_true rfl heq.symm
    · rw [if_neg heq]
      exact iff_of_false (by simp) (fun h => heq h.symm)
  refine ⟨hiff, hlower, ?_⟩
  rintro ⟨c, hc, hup⟩
  cases hd : w.digest md5Compute expected with
  | false => rfl
  | true =>
    have hexp := hiff.mp hd
    have := (hlower c (hexp ▸ hc)).2
    rw [hup] at this
    cases this

/-- Witness for C6: an all-uppercase expected digest never matches, whatever
the context holds. -/
theorem c6_digest_exact_lowercase_match_witness :
    (Md5ConsumerWriter.mk [] 0).digest (fun _ => List.replicate 16 0)
        "AB".toList = false :=
  (c6_digest_exact_lowercase_match (Md5ConsumerWriter.mk [] 0)
      (fun _ => List.replicate 16 0) "AB".toList).2.2
    ⟨'A', by decide, by decide⟩

/-! ## ChromosomePipeline (`smart_save_vcf_from_url` end to end) -/

/-- The per-job pipeline `smart_save_vcf_from_url` once the connection is
open: `rawBytes` is the raw (compressed) byte stream, fully read; the tee
feeds every raw byte into the `Md5ConsumerWriter` while `decompress` (the
external bgzf codec) yields the text lines. `none` models the job's panic on
a malformed record; otherwise the result is the list of lines written to the
output file together with the function's boolean return value, namely the
digest comparison performed after the stream ends. -/
def smart_save_vcf_from_url (expected_md5 : List Char)
    (regions : List (Nat × Nat)) (rawBytes : List Nat)
    (decompress : List Nat → List Line)
    (md5Compute : List Nat → List Nat) : Option (List Line × Bool) :=
  match processLines (SortedIntervalIntersect.new regions) (decompress rawBytes) with
  | .fatal _ _ => none
  | .ok out _ =>
    some (out, ((Md5ConsumerWriter.new.write rawBytes).1).digest md5Compute expected_md5)

/-- C7: when the input stream is read to the end (the line loop finishes
without a fatal error), a digest mismatch is non-fatal: the filtered output
has been written in full and is kept, and the mismatch surfaces only as the
job's boolean result `false` — not as an error outcome. -/
theorem c7_digest_mismatch_nonfatal (expected : List Char)
    (regions : List (Nat × Nat)) (rawBytes : List Nat)
    (decompress : List Nat → List Line) (md5Compute : List Nat → List Nat)
    (out : List Line) (fin : SortedIntervalIntersect)
    (hok : processLines (SortedIntervalIntersect.new regions) (decompress rawBytes)
      = RunResult.ok out fin)
    (hmm : expected ≠ formatLowerHex (md5Compute rawBytes)) :
    smart_save_vcf_from_url expected regions rawBytes decompress md5Compute
      = some (out, false) := by
  unfold smart_save_vcf_from_url
  rw [hok]
  have hcons : (Md5ConsumerWriter.new.write rawBytes).1.consumed = rawBytes := by
    simp [Md5ConsumerWriter.new, Md5ConsumerWriter.write]
  have hdig : ((Md5ConsumerWriter.new.write rawBytes).1).digest md5Compute expected
      = false := by
    unfold Md5ConsumerWriter.digest
    rw [hcons, if_neg (fun h => hmm h.symm)]
  rw [hdig]

/-- Witness for C7: empty stream, empty region list, deliberately wrong
expected digest — the job still returns its output with result `false`. -/
theorem c7_digest_mismatch_nonfatal_witness :
    smart_save_vcf_from_url "x".toList [] [] (fun _ => []) (fun _ => [])
      = some ([], false) :=
  c7_digest_mismatch_nonfatal "x".toList [] [] (fun _ => []) (fun _ => [])
    [] (SortedIntervalIntersect.new []) (by decide) (by decide)

/-! ## JobScheduler join loop (the final `for` of `main`) -/

/-- Terminal state of one spawned job's thread, as seen by `join()`: the
thread ran to completion and returned its boolean, or it panicked. -/
inductive JoinOutcome where
  | finished (success : Bool)
  | panicked
deriving DecidableEq, Repr

/-- The reported predicate: a job whose thread returned `true`. -/
def isSuccess (j : JoinOutcome × List Char) : Bool :=
  match j.1 with
  | JoinOutcome.finished true => true
  | _ => false

/-- The join/report loop of `main`: handles are joined in launch order;
`handle.join().expect(...)` panics the scheduler itself as soon as a joined
thread has panicked, and otherwise the chromosome is reported on success.
Returns the chromosomes reported as successfully downloaded, and whether the
scheduler reached the end of the loop (`false` = the scheduler panicked). -/
def joinAll : List (JoinOutcome × List Char) → List (List Char) × Bool
  | [] => ([], true)
  | (JoinOutcome.panicked, _) :: _ => ([], false)
  | (JoinOutcome.finished b, chrom) :: rest =>
    let r := joinAll rest
    (if b then chrom :: r.1 else r.1, r.2)

/-- Counterexample to C5 as stated: when the first joined job has panicked,
the scheduler panics at that join — the second job's success is neither
joined nor reported, so the scheduler does not wait for and report all
remaining jobs. -/
theorem c5_join_counterexample :
    joinAll [(JoinOutcome.panicked, "chr1".toList),
             (JoinOutcome.finished true, "chr2".toList)] = ([], false)
    ∧ "chr2".toList ∉
        (joinAll [(JoinOutcome.panicked, "chr1".toList),
                  (JoinOutcome.finished true, "chr2".toList)]).1 :=
  ⟨rfl, by decide⟩

/-- C5 amended: the scheduler joins jobs sequentially in launch order. If no
job panicked it joins every job and reports exactly the successful ones, in
order, completing normally; a panicked job makes `join().expect` panic the
scheduler itself at that point, so jobs joined earlier are reported but the
panicked job's siblings later in the list are neither joined nor reported. -/
theorem c5_join_amended (jobs : List (JoinOutcome × List Char)) :
    ((∀ o ∈ jobs, o.1 ≠ JoinOutcome.panicked) →
      joinAll jobs =
        ((jobs.filter isSuccess).map Prod.snd,
          true))
    ∧ (∀ (pre : List (JoinOutcome × List Char)) (name : List Char)
        (post : List (JoinOutcome × List Char)),
        jobs = pre ++ (JoinOutcome.panicked, name) :: post →
        (∀ o ∈ pre, o.1 ≠ JoinOutcome.panicked) →
        joinAll jobs =
          ((pre.filter isSuccess).map Prod.snd,
            false)) := by
  constructor
  · intro hnp
    induction jobs with
    | nil => rfl
    | cons j rest ih =>
      obtain ⟨o, chrom⟩ := j
      cases o with
      | panicked => exact absurd rfl (hnp (JoinOutcome.panicked, chrom) (by simp))
      | finished b =>
        have hrest := ih (fun o ho => hnp o (List.mem_cons_of_mem _ ho))
        cases b with
        | true => simp [joinAll, hrest, List.filter, isSuccess]
        | false => simp [joinAll, hrest, List.filter, isSuccess]
  · intro pre name post hsplit hnp
    subst hsplit
    induction pre with
    | nil => simp [joinAll, List.filter]
    | cons j pre2 ih =>
      obtain ⟨o, chrom⟩ := j
      cases o with
      | panicked => exact absurd rfl (hnp (JoinOutcome.panicked, chrom) (by simp))
      | finished b =>
        have hrec := ih (fun o ho => hnp o (List.mem_cons_of_mem _ ho))
        cases b with
        | true => simp [joinAll, hrec, List.filter, isSuccess]
        | false => simp [joinAll, hrec, List.filter, isSuccess]

/-- Witness for the amended C5: one success then one failure outcome, no
panic — both jobs joined, only the success reported, normal completion. -/
theorem c5_join_amended_witness :
    joinAll [(JoinOutcome.finished true, "chr1".toList),
             (JoinOutcome.finished false, "chr2".toList)]
      = (([(JoinOutcome.finished true, ("chr1".toList : List Char)),
           (JoinOutcome.finished false, "chr2".toList)].filter
            isSuccess).map Prod.snd, true) :=
  (c5_join_amended [(JoinOutcome.finished true, "chr1".toList),
                    (JoinOutcome.finished false, "chr2".toList)]).1
    (by decide)

/-! ## Job construction in `main` (manifest map, region grouping, job list) -/

/-- A row of the URL/checksum manifest CSV. -/
structure URLDownloadRecord where
  chromosome : List Char
  md5sum : List Char
  url : List Char
deriving DecidableEq, Repr

/-- A row of the BED region table. -/
structure BEDRecord where
  chromosome : List Char
  start : Nat
  «end» : Nat
deriving DecidableEq, Repr

/-- Association-list lookup (`HashMap::get`): the value stored at the key. -/
def lookupA {β : Type} : List (List Char × β) → List Char → Option β
  | [], _ => none
  | (k, v) :: rest, c => if k = c then some v else lookupA rest c

/-- One step of the `urls` fold: `acc.entry(chrom).or_insert((md5, url))` —
insert only when the key is absent, so the first record for a chromosome
wins. -/
def entryOrInsert (acc : List (List Char × (List Char × List Char)))
    (k : List Char) (v : List Char × List Char) :
    List (List Char × (List Char × List Char)) :=
  match lookupA acc k with
  | some _ => acc
  | none => acc ++ [(k, v)]

/-- The `urls` map of `main`: fold every manifest record with first-wins
insertion. The Rust `HashMap` is modelled as an association list; everything
proved about it is key-based and independent of iteration order. -/
def urlsMap (records : List URLDownloadRecord) :
    List (List Char × (List Char × List Char)) :=
  records.foldl (fun acc r => entryOrInsert acc r.chromosome (r.md5sum, r.url)) []

/-- One step of the regions fold:
`acc.entry(chrom).or_insert_with(Vec::new).push((start, end))`. -/
def pushRegion : List (List Char × List (Nat × Nat)) → List Char → Nat × Nat →
    List (List Char × List (Nat × Nat))
  | [], k, r => [(k, [r])]
  | (k2, v) :: rest, k, r =>
    if k2 = k then (k2, v ++ [r]) :: rest
    else (k2, v) :: pushRegion rest k r

/-- The grouping fold of `main` building `regions_per_chr`, before sorting. -/
def regionsFold (beds : List BEDRecord) : List (List Char × List (Nat × Nat)) :=
  beds.foldl (fun acc b => pushRegion acc b.chromosome (b.start, b.«end»)) []

/-- `regions_per_chr` of `main`: group the BED records by chromosome, then
sort each chromosome's region vector ascending by interval start
(`regions.sort_by_key(|r| r.0)`, a stable sort). -/
def regions_per_chr (beds : List BEDRecord) :
    List (List Char × List (Nat × Nat)) :=
  (regionsFold beds).map
    (fun e => (e.1, e.2.mergeSort (fun a b => decide (a.1 ≤ b.1))))

/-- One spawned download job of `main`. -/
structure Job where
  chromosome : List Char
  expected_md5 : List Char
  url : List Char
  regions : List (Nat × Nat)
deriving DecidableEq, Repr

/-- The body of the job-construction loop of `main`: spawn a job for a
`regions_per_chr` entry exactly when `urls.get(&chrom_name)` finds a manifest
entry. -/
def jobOf (M : List (List Char × (List Char × List Char)))
    (e : List Char × List (Nat × Nat)) : Option Job :=
  match lookupA M e.1 with
  | some mu => some ⟨e.1, mu.1, mu.2, e.2⟩
  | none => none

/-- The job-construction loop of `main`: one job per `regions_per_chr` entry
whose chromosome has a manifest entry; a chromosome without one is silently
skipped. -/
def buildJobs (beds : List BEDRecord) (manifest : List URLDownloadRecord) :
    List Job :=
  (regions_per_chr beds).filterMap (jobOf (urlsMap manifest))

/-- The `(start, end)` pairs the BED table lists for one chromosome, in row
order. -/
def collectedRegions (beds : List BEDRecord) (c : List Char) : List (Nat × Nat) :=
  (beds.filter (fun b => decide (b.chromosome = c))).map (fun b => (b.start, b.«end»))

theorem lookupA_append {β : Type} (m1 m2 : List (List Char × β)) (c : List Char) :
    lookupA (m1 ++ m2) c =
      match lookupA m1 c with
      | some v => some v
      | none => lookupA m2 c := by
  induction m1 with
  | nil => rfl
  | cons e rest ih =>
    obtain ⟨k, v⟩ := e
    by_cases hk : k = c
    · simp [lookupA, hk]
    · simp [lookupA, hk, ih]

theorem lookupA_entryOrInsert (acc : List (List Char × (List Char × List Char)))
    (k c : List Char) (v : List Char × List Char) :
    lookupA (entryOrInsert acc k v) c =
      match lookupA acc c with
      | some w => some w
      | none => if k = c then some v else none := by
  unfold entryOrInsert
  cases hk : lookupA acc k with
  | some w =>
    cases hc : lookupA acc c with
    | some w2 => simp [hc]
    | none =>
      have hne : k ≠ c := by
        intro he
        subst he
        rw [hk] at hc
        cases hc
      simp [hc, hne]
  | none =>
    rw [lookupA_append]
    cases hc : lookupA acc c with
    | some w2 => simp [hc]
    | none => simp [hc, lookupA]

theorem urlsMap_fold_lookup (records : List URLDownloadRecord)
    (acc : List (List Char × (List Char × List Char))) (c : List Char) :
    lookupA (records.foldl
        (fun a r => entryOrInsert a r.chromosome (r.md5sum, r.url)) acc) c =
      match lookupA acc c with
      | some v => some v
      | none => (records.find? (fun r => decide (r.chromosome = c))).map
          (fun r => (r.md5sum, r.url)) := by
  induction records generalizing acc with
  | nil => cases h : lookupA acc c <;> simp [h]
  | cons r rest ih =>
    rw [List.foldl_cons, ih, lookupA_entryOrInsert]
    cases hc : lookupA acc c with
    | some w => simp
    | none =>
      by_cases hr : r.chromosome = c
      · simp [hr, List.find?]
      · simp [hr, List.find?]

/-- First-wins: the manifest map holds, per chromosome, exactly the first
manifest record for it. -/
theorem urlsMap_lookup (manifest : List URLDownloadRecord) (c : List Char) :
    lookupA (urlsMap manifest) c
      = (manifest.find? (fun r => decide (r.chromosome = c))).map
          (fun r => (r.md5sum, r.url)) := by
  unfold urlsMap
  rw [urlsMap_fold_lookup]
  rfl

theorem lookupA_pushRegion (m : List (List Char × List (Nat × Nat)))
    (k c : List Char) (r : Nat × Nat) :
    lookupA (pushRegion m k r) c =
      if k = c then some ((lookupA m c).getD [] ++ [r]) else lookupA m c := by
  induction m with
  | nil =>
    by_cases hk : k = c <;> simp [pushRegion, lookupA, hk]
  | cons e rest ih =>
    obtain ⟨k2, v⟩ := e
    by_cases h2 : k2 = k
    · subst h2
      by_cases hc : k2 = c
      · subst hc
        simp [pushRegion, lookupA]
      · simp [pushRegion, lookupA, hc]
    · by_cases hc : k2 = c
      · subst hc
        have hkc : k ≠ k2 := fun he => h2 he.symm
        simp [pushRegion, h2, lookupA, hkc]
      · simp [pushRegion, h2, lookupA, hc, ih]

theorem keys_pushRegion_mem (m : List (List Char × List (Nat × Nat)))
    (k c : List Char) (r : Nat × Nat) :
    c ∈ (pushRegion m k r).map Prod.fst ↔ c ∈ m.map Prod.fst ∨ c = k := by
  induction m with
  | nil => simp [pushRegion]
  | cons e rest ih =>
    obtain ⟨k2, v⟩ := e
    by_cases h2 : k2 = k
    · subst h2
      simp [pushRegion]
      tauto
    · simp [pushRegion, h2, ih]
      tauto

theorem keys_pushRegion_nodup {m : List (List Char × List (Nat × Nat))}
    (k : List Char) (r : Nat × Nat)
    (h : (m.map Prod.fst).Nodup) : ((pushRegion m k r).map Prod.fst).Nodup := by
  induction m with
  | nil => simp [pushRegion]
  | cons e rest ih =>
    obtain ⟨k2, v⟩ := e
    simp only [List.map_cons, List.nodup_cons] at h
    obtain ⟨hnotin, hrest⟩ := h
    by_cases h2 : k2 = k
    · subst h2
      simp [pushRegion, List.nodup_cons, hnotin, hrest]
    · simp only [pushRegion, if_neg h2, List.map_cons, List.nodup_cons]
      refine ⟨?_, ih hrest⟩
      rw [keys_pushRegion_mem]
      rintro (hm | he)
      · exact hnotin hm
      · exact h2 he

theorem keys_regionsFold_mem (beds : List BEDRecord)
    (acc : List (List Char × List (Nat × Nat))) (c : List Char) :
    c ∈ ((beds.foldl
        (fun a b => pushRegion a b.chromosome (b.start, b.«end»)) acc).map Prod.fst)
      ↔ c ∈ acc.map Prod.fst ∨ ∃ b ∈ beds, b.chromosome = c := by
  induction beds generalizing acc with
  | nil => simp
  | cons b rest ih =>
    rw [List.foldl_cons, ih, keys_pushRegion_mem]
    constructor
    · rintro ((hm | he) | hb)
      · exact Or.inl hm
      · exact Or.inr ⟨b, by simp, he.symm⟩
      · obtain ⟨b2, hb2, hc2⟩ := hb
        exact Or.inr ⟨b2, List.mem_cons_of_mem b hb2, hc2⟩
    · rintro (hm | ⟨b2, hb2, hc2⟩)
      · exact Or.inl (Or.inl hm)
      · rcases List.mem_cons.mp hb2 with he | he
        · subst he
          exact Or.inl (Or.inr hc2.symm)
        · exact Or.inr ⟨b2, he, hc2⟩

theorem keys_regionsFold_nodup (beds : List BEDRecord)
    (acc : List (List Char × List (Nat × Nat)))
    (h : (acc.map Prod.fst).Nodup) :
    ((beds.foldl
        (fun a b => pushRegion a b.chromosome (b.start, b.«end»)) acc).map
      Prod.fst).Nodup := by
  induction beds generalizing acc with
  | nil => simpa
  | cons b rest ih => exact ih _ (keys_pushRegion_nodup _ _ h)

theorem lookupA_regionsFold_getD (beds : List BEDRecord)
    (acc : List (List Char × List (Nat × Nat))) (c : List Char) :
    (lookupA (beds.foldl
        (fun a b => pushRegion a b.chromosome (b.start, b.«end»)) acc) c).getD []
      = (lookupA acc c).getD [] ++ collectedRegions beds c := by
  induction beds generalizing acc with
  | nil => simp [collectedRegions]
  | cons b rest ih =>
    rw [List.foldl_cons, ih, lookupA_pushRegion]
    by_cases hb : b.chromosome = c
    · rw [if_pos hb]
      simp [collectedRegions, List.filter_cons, hb]
    · rw [if_neg hb]
      simp [collectedRegions, List.filter_cons, hb]

theorem lookupA_of_mem_nodup {β : Type} {m : List (List Char × β)}
    {c : List Char} {v : β}
    (hnd : (m.map Prod.fst).Nodup) (hm : (c, v) ∈ m) : lookupA m c = some v := by
  induction m with
  | nil => cases hm
  | cons e rest ih =>
    obtain ⟨k, w⟩ := e
    simp only [List.map_cons, List.nodup_cons] at hnd
    rcases List.mem_cons.mp hm with he | he
    · injection he with h1 h2
      subst h1
      subst h2
      simp [lookupA]
    · have hkc : k ≠ c := by
        intro hkc
        subst hkc
        exact hnd.1 (List.mem_map.mpr ⟨(k, v), he, rfl⟩)
      simp [lookupA, hkc, ih hnd.2 he]

/-- An entry of the grouping fold holds exactly the `(start, end)` pairs the
BED table lists for its chromosome, in row order. -/
theorem regionsFold_value {beds : List BEDRecord} {c : List Char}
    {rs : List (Nat × Nat)} (hm : (c, rs) ∈ regionsFold beds) :
    rs = collectedRegions beds c := by
  have hnd : ((regionsFold beds).map Prod.fst).Nodup :=
    keys_regionsFold_nodup beds [] (by simp)
  have hl : lookupA (regionsFold beds) c = some rs := lookupA_of_mem_nodup hnd hm
  have hg := lookupA_regionsFold_getD beds [] c
  unfold regionsFold at hl
  rw [hl] at hg
  simpa using hg

theorem jobOf_chromosome {M : List (List Char × (List Char × List Char))}
    {e : List Char × List (Nat × Nat)} {j : Job}
    (h : jobOf M e = some j) : j.chromosome = e.1 ∧ lookupA M e.1 ≠ none := by
  unfold jobOf at h
  cases hl : lookupA M e.1 with
  | none =>
    rw [hl] at h
    cases h
  | some mu =>
    rw [hl] at h
    injection h with h2
    subst h2
    exact ⟨rfl, by simp [hl]⟩

theorem countP_jobs_zero (M : List (List Char × (List Char × List Char)))
    (c : List Char) (R : List (List Char × List (Nat × Nat)))
    (hc : c ∉ R.map Prod.fst) :
    (R.filterMap (jobOf M)).countP (fun j => decide (j.chromosome = c)) = 0 := by
  induction R with
  | nil => rfl
  | cons e rest ih =>
    simp only [List.map_cons, List.mem_cons, not_or] at hc
    obtain ⟨hne, hrest⟩ := hc
    cases hj : jobOf M e with
    | none => simp only [List.filterMap_cons, hj]; exact ih hrest
    | some j =>
      have hjc := (jobOf_chromosome hj).1
      simp only [List.filterMap_cons, hj, List.countP_cons]
      have : decide (j.chromosome = c) = false := by
        simp [hjc]
        intro he
        exact absurd he.symm hne
      rw [this]
      simpa using ih hrest

theorem countP_jobs_one (M : List (List Char × (List Char × List Char)))
    (c : List Char) (mu : List Char × List Char)
    (hlook : lookupA M c = some mu)
    (R : List (List Char × List (Nat × Nat)))
    (hnd : (R.map Prod.fst).Nodup) (hmem : c ∈ R.map Prod.fst) :
    (R.filterMap (jobOf M)).countP (fun j => decide (j.chromosome = c)) = 1 := by
  induction R with
  | nil => cases hmem
  | cons e rest ih =>
    simp only [List.map_cons, List.nodup_cons] at hnd
    by_cases he : e.1 = c
    · have hj : jobOf M e = some ⟨e.1, mu.1, mu.2, e.2⟩ := by
        unfold jobOf
        rw [he, hlook]
      simp only [List.filterMap_cons, hj, List.countP_cons]
      have hz : (rest.filterMap (jobOf M)).countP
          (fun j => decide (j.chromosome = c)) = 0 :=
        countP_jobs_zero M c rest (he ▸ hnd.1)
      simp [hz, he]
    · have hmem2 : c ∈ rest.map Prod.fst := by
        rcases List.mem_cons.mp hmem with hx | hx
        · exact absurd hx.symm he
        · exact hx
      cases hj : jobOf M e with
      | none =>
        simp only [List.filterMap_cons, hj]
        exact ih hnd.2 hmem2
      | some j =>
        have hjc := (jobOf_chromosome hj).1
        simp only [List.filterMap_cons, hj, List.countP_cons]
        have hf : decide (j.chromosome = c) = false := by
          simp [hjc]
          exact he
        rw [hf]
        simpa using ih hnd.2 hmem2

theorem keys_regions_per_chr (beds : List BEDRecord) :
    (regions_per_chr beds).map Prod.fst = (regionsFold beds).map Prod.fst := by
  unfold regions_per_chr
  rw [List.map_map]
  exact List.map_congr_left (fun e _ => rfl)

/-- C9: job construction policy. (1) The manifest map holds, per chromosome,
exactly the first manifest record encountered for it — later duplicates are
ignored, not an error. (2) A chromosome present in the region table but
absent from the manifest produces no job at all. (3) A chromosome with both
regions and a manifest entry produces exactly one job, and that job carries
the first record's md5 and url. -/
theorem c9_job_construction_policy (beds : List BEDRecord)
    (manifest : List URLDownloadRecord) (c : List Char) :
    (lookupA (urlsMap manifest) c
      = (manifest.find? (fun r => decide (r.chromosome = c))).map
          (fun r => (r.md5sum, r.url)))
    ∧ (lookupA (urlsMap manifest) c = none →
        ∀ j ∈ buildJobs beds manifest, j.chromosome ≠ c)
    ∧ (∀ mu : List Char × List Char, lookupA (urlsMap manifest) c = some mu →
        (∃ b ∈ beds, b.chromosome = c) →
        ((buildJobs beds manifest).countP
            (fun j => decide (j.chromosome = c)) = 1
          ∧ ∀ j ∈ buildJobs beds manifest, j.chromosome = c →
              j.expected_md5 = mu.1 ∧ j.url = mu.2)) := by
  refine ⟨urlsMap_lookup manifest c, ?_, ?_⟩
  · intro hnone j hj hc
    obtain ⟨e, he, hfe⟩ := List.mem_filterMap.mp hj
    obtain ⟨hjc, hlook⟩ := jobOf_chromosome hfe
    rw [hjc] at hc
    rw [hc] at hlook
    exact hlook hnone
  · intro mu hmu hbed
    constructor
    · unfold buildJobs
      apply countP_jobs_one (urlsMap manifest) c mu hmu
      · rw [keys_regions_per_chr]
        exact keys_regionsFold_nodup beds [] (by simp)
      · rw [keys_regions_per_chr]
        unfold regionsFold
        rw [keys_regionsFold_mem]
        exact Or.inr hbed
    · intro j hj hc
      obtain ⟨e, he, hfe⟩ := List.mem_filterMap.mp hj
      unfold jobOf at hfe
      cases hl : lookupA (urlsMap manifest) e.1 with
      | none =>
        rw [hl] at hfe
        cases hfe
      | some mu2 =>
        rw [hl] at hfe
        injection hfe with hfe2
        subst hfe2
        have hec : e.1 = c := hc
        rw [hec, hmu] at hl
        injection hl with hl2
        subst hl2
        exact ⟨rfl, rfl⟩

/-- Witness for C9: two manifest rows for the same chromosome (first wins)
plus one BED row for it produce exactly one job, carrying the first row's
digest and url. -/
theorem c9_job_construction_policy_witness :
    ((buildJobs [⟨"chr1".toList, 100, 200⟩]
        [⟨"chr1".toList, "aaa".toList, "u1".toList⟩,
         ⟨"chr1".toList, "bbb".toList, "u2".toList⟩]).countP
      (fun j => decide (j.chromosome = "chr1".toList)) = 1)
    ∧ ∀ j ∈ buildJobs [⟨"chr1".toList, 100, 200⟩]
        [⟨"chr1".toList, "aaa".toList, "u1".toList⟩,
         ⟨"chr1".toList, "bbb".toList, "u2".toList⟩],
        j.chromosome = "chr1".toList →
          j.expected_md5 = ("aaa".toList, "u1".toList).1
            ∧ j.url = ("aaa".toList, "u1".toList).2 :=
  (c9_job_construction_policy [⟨"chr1".toList, 100, 200⟩]
      [⟨"chr1".toList, "aaa".toList, "u1".toList⟩,
       ⟨"chr1".toList, "bbb".toList, "u2".toList⟩] "chr1".toList).2.2
    ("aaa".toList, "u1".toList) (by decide) (by decide)

/-- C10: for every region-table input, in any row order, the region list each
job hands to its IntervalScanner is sorted ascending by interval start by the
program itself, and it is a permutation of exactly the `(start, end)` pairs
the BED table lists for that chromosome: overlapping regions are kept as-is,
neither merged nor removed. -/
theorem c10_regions_sorted_overlaps_kept (beds : List BEDRecord)
    (manifest : List URLDownloadRecord) (j : Job)
    (hj : j ∈ buildJobs beds manifest) :
    List.Pairwise (fun a b : Nat × Nat => a.1 ≤ b.1) j.regions
    ∧ List.Perm j.regions (collectedRegions beds j.chromosome) := by
  obtain ⟨e, he, hfe⟩ := List.mem_filterMap.mp hj
  unfold jobOf at hfe
  cases hl : lookupA (urlsMap manifest) e.1 with
  | none =>
    rw [hl] at hfe
    cases hfe
  | some mu =>
    rw [hl] at hfe
    injection hfe with hfe2
    subst hfe2
    obtain ⟨e0, he0, hee⟩ := List.mem_map.mp he
    subst hee
    obtain ⟨c0, rs0⟩ := e0
    have hval : rs0 = collectedRegions beds c0 := regionsFold_value he0
    have htrans : ∀ a b c : Nat × Nat, (decide (a.1 ≤ b.1)) = true →
        (decide (b.1 ≤ c.1)) = true → (decide (a.1 ≤ c.1)) = true := by
      intro a b c h1 h2
      simp only [decide_eq_true_eq] at h1 h2 ⊢
      omega
    have htotal : ∀ a b : Nat × Nat,
        ((decide (a.1 ≤ b.1)) || (decide (b.1 ≤ a.1))) = true := by
      intro a b
      simp only [Bool.or_eq_true, decide_eq_true_eq]
      omega
    constructor
    · have hsorted := @List.sorted_mergeSort (Nat × Nat)
        (fun a b => decide (a.1 ≤ b.1)) htrans htotal rs0
      exact hsorted.imp (fun h => of_decide_eq_true h)
    · show List.Perm (rs0.mergeSort (fun a b => decide (a.1 ≤ b.1)))
        (collectedRegions beds c0)
      rw [← hval]
      exact List.mergeSort_perm rs0 (fun a b => decide (a.1 ≤ b.1))

/-- Witness for C10: two unsorted, overlapping BED rows for one chromosome
give a job whose scanner regions are sorted by start and keep both rows. -/
theorem c10_regions_sorted_overlaps_kept_witness :
    List.Pairwise (fun a b : Nat × Nat => a.1 ≤ b.1)
        (Job.mk "c1".toList "m".toList "u".toList
          [(100, 500), (400, 1000)]).regions
    ∧ List.Perm
        (Job.mk "c1".toList "m".toList "u".toList
          [(100, 500), (400, 1000)]).regions
        (collectedRegions
          [⟨"c1".toList, 400, 1000⟩, ⟨"c1".toList, 100, 500⟩]
          (Job.mk "c1".toList "m".toList "u".toList
            [(100, 500), (400, 1000)]).chromosome) :=
  c10_regions_sorted_overlaps_kept
    [⟨"c1".toList, 400, 1000⟩, ⟨"c1".toList, 100, 500⟩]
    [⟨"c1".toList, "m".toList, "u".toList⟩]
    (Job.mk "c1".toList "m".toList "u".toList [(100, 500), (400, 1000)])
    (by simp [buildJobs, regions_per_chr, regionsFold, urlsMap, entryOrInsert,
      lookupA, pushRegion, jobOf, List.mergeSort])
